import Mathlib

/-!
Verification development for the `ifunnyapi` client library.

The embedded code is `_IFBaseAPI._get_paging_items` from `src/ifunnyapi/api.py`
(the cursor-pagination accumulator) together with the `api_request` decorator
from `src/ifunnyapi/utils.py` and the `APIError` exception from
`src/ifunnyapi/exceptions.py`.

The pagination accumulator issues HTTP GET requests through `self._get`; each
request carries a params dictionary that is either `{"limit": n}` or
`{"limit": 100, "next": cursor}`, and each successful response is read through
the three accessors `get_items`, `get_next` and `has_next`, yielding a list of
items, a cursor, and a boolean flag.  We model that fetch boundary as an
oracle: a function from the index of the fetch (how many fetches were issued
before it) and the request parameters to either a parsed page or an error.
The embedding is instrumented: alongside the returned items it records the
trace of requests issued and responses received, so that statements about the
fetch schedule can be made.  The unbounded `while has_next` loop of the source
can genuinely diverge, so the loop takes a fuel parameter; `none` means the
fuel was exhausted with the loop still running.
-/

deriving instance DecidableEq for Except

namespace IFAPI

/-- A parsed page of a paging response, as read by the source's accessors:
`get_items` (`r["data"][key]["items"]`), `get_next`
(`r["data"][key]["paging"]["cursors"]["next"]`) and `has_next`
(`r["data"][key]["paging"]["hasNext"]`). -/
structure Page (Item Cursor : Type) where
  items : List Item
  next : Cursor
  hasNext : Bool
  deriving DecidableEq, Repr

/-- The params dictionary of one GET request issued by `_get_paging_items`:
the `"limit"` entry (the requested page size, a Python int) and the optional
`"next"` entry (absent, i.e. `none`, when the params dict has no `"next"`
key). -/
structure FetchRequest (Cursor : Type) where
  limit : Int
  next : Option Cursor
  deriving DecidableEq, Repr

/-- The fetch boundary: `self._get` composed with the page accessors.  The
first argument is the index of the fetch (the number of fetches issued before
it), so that successive fetches may observe different server states.  An
`Except.error` models any exception escaping the fetch: the spec's
`TransportError`/`ProtocolError` taxonomy, or concretely a `requests`
exception, an `APIError` raised by the `api_request` decorator, or a
`KeyError` from the accessors. -/
abbrev Oracle (Item Cursor E : Type) : Type :=
  Nat → FetchRequest Cursor → Except E (Page Item Cursor)

/-- The recorded trace of a run: each issued request paired with the response
(or error) the fetch produced, in issue order. -/
abbrev Trace (Item Cursor E : Type) : Type :=
  List (FetchRequest Cursor × Except E (Page Item Cursor))

/-- The items contributed by one trace entry: a successful fetch contributes
its page's items, a failed fetch contributes nothing. -/
def entryItems {Item Cursor E : Type} :
    FetchRequest Cursor × Except E (Page Item Cursor) → List Item
  | (_, Except.ok p) => p.items
  | (_, Except.error _) => []

/-- Concatenation, in fetch order, of the item lists of the pages of a
trace. -/
def traceItems {Item Cursor E : Type} (tr : Trace Item Cursor E) : List Item :=
  (tr.map entryItems).flatten

/-- The mutable state of the `while` loop of `_get_paging_items`: the counter
`lbuffer`, the current response `batch`, the accumulated `items`, plus the
instrumentation trace. -/
structure PagingState (Item Cursor E : Type) where
  lbuffer : Int
  batch : Page Item Cursor
  items : List Item
  trace : Trace Item Cursor E
  deriving DecidableEq, Repr

variable {Item Cursor E : Type}

/-- The loop condition of the source,
`has_next(batch) if lnone else lbuffer in range(val)`; Python's
`x in range(n)` means `0 <= x < n`. -/
def loopCond (lnone : Bool) (val : Int) (s : PagingState Item Cursor E) : Bool :=
  if lnone then s.batch.hasNext else decide (0 ≤ s.lbuffer) && decide (s.lbuffer < val)

/-- The `while` loop of `_get_paging_items`, fueled.  Each iteration
increments `lbuffer`, issues
`self._get(path, params={"limit": 100, "next": get_next(batch)})`, and on
success rebinds `batch` and extends `items`; an exception aborts the loop with
the error.  Returns `none` when the fuel runs out with the loop condition
still true, otherwise the state after the loop together with `some e` when a
fetch raised `e`. -/
def pagingLoop (O : Oracle Item Cursor E) (lnone : Bool) (val : Int) :
    Nat → PagingState Item Cursor E →
    Option (PagingState Item Cursor E × Option E)
  | 0, s => if loopCond lnone val s then none else some (s, none)
  | fuel + 1, s =>
    if loopCond lnone val s then
      match O s.trace.length ⟨100, some s.batch.next⟩ with
      | Except.ok p =>
          pagingLoop O lnone val fuel
            ⟨s.lbuffer + 1, p, s.items ++ p.items,
              s.trace ++ [(⟨100, some s.batch.next⟩, Except.ok p)]⟩
      | Except.error e =>
          some (⟨s.lbuffer + 1, s.batch, s.items,
            s.trace ++ [(⟨100, some s.batch.next⟩, Except.error e)]⟩, some e)
    else some (s, none)

/-- The outcome of one `_get_paging_items` run: the full fetch trace and
either the returned item list or the propagated error. -/
structure RunResult (Item Cursor E : Type) where
  trace : Trace Item Cursor E
  result : Except E (List Item)
  deriving DecidableEq, Repr

/-- The fetch issued after the loop (`if lnone: ... else: ...` followed by
`items.extend(get_items(batch)); return items`). -/
def finishFetch (O : Oracle Item Cursor E) (s : PagingState Item Cursor E)
    (req : FetchRequest Cursor) : RunResult Item Cursor E :=
  match O s.trace.length req with
  | Except.error e => ⟨s.trace ++ [(req, Except.error e)], Except.error e⟩
  | Except.ok p => ⟨s.trace ++ [(req, Except.ok p)], Except.ok (s.items ++ p.items)⟩

/-- Shallow embedding of `_IFBaseAPI._get_paging_items` (src/ifunnyapi/api.py,
lines 140200), instrumented with the fetch trace.  `limit = none` is Python's
`limit is None`.  Mirrors the source line by line: `ilim` selection, first
fetch, early return when `limit <= 100`, `val, rem = divmod(limit - 100, 100)`
(Python floor divmod with positive divisor is `Int.ediv`/`Int.emod`), the
`while` loop, and the trailing fetch (`{"limit": 100, "next": ...}` in the
unbounded case, `{"limit": rem}` with no `"next"` key otherwise).  Any fetch
error propagates immediately.  `none` is returned only when `fuel` is too
small for the run (a modelling artifact; the bounded branches never need more
than `val` fuel). -/
def get_paging_items (O : Oracle Item Cursor E) (limit : Option Int)
    (fuel : Nat) : Option (RunResult Item Cursor E) :=
  let ilim : Int :=
    match limit with
    | none => 100
    | some l => if 100 < l then 100 else l
  let req0 : FetchRequest Cursor := ⟨ilim, none⟩
  match O 0 req0 with
  | Except.error e => some ⟨[(req0, Except.error e)], Except.error e⟩
  | Except.ok batch =>
    let s0 : PagingState Item Cursor E :=
      ⟨0, batch, batch.items, [(req0, Except.ok batch)]⟩
    match limit with
    | some l =>
      if l ≤ 100 then some ⟨s0.trace, Except.ok s0.items⟩
      else
        let val := (l - 100) / 100
        let rem := (l - 100) % 100
        match pagingLoop O false val fuel s0 with
        | none => none
        | some (s, some e) => some ⟨s.trace, Except.error e⟩
        | some (s, none) => some (finishFetch O s ⟨rem, none⟩)
    | none =>
      match pagingLoop O true 0 fuel s0 with
      | none => none
      | some (s, some e) => some ⟨s.trace, Except.error e⟩
      | some (s, none) => some (finishFetch O s ⟨100, some s.batch.next⟩)

/-- Modelled from the spec: the two error kinds of the `PagedResource`
fetch boundary (spec §4.1, §7).  The transport layer itself (the `requests`
library) is external to this repository; the spec abstracts an uncompletable
request as `TransportError` and a response lacking the expected
item/cursor/has-more shape (in the source: an error body making `api_request`
raise `APIError`, or a `KeyError` from the page accessors) as
`ProtocolError`. -/
inductive FetchError where
  | transportError
  | protocolError
  deriving DecidableEq, Repr

/-- A Python dict with string keys, as an association list (keys unique in
practice; lookup takes the first binding). -/
abbrev RespDict (V : Type) : Type := List (String × V)

/-- Looking up `d[k]` on a Python dict: `none` models a `KeyError`. -/
def getKey {V : Type} (d : RespDict V) (k : String) : Option V :=
  d.lookup k

/-- The possible outcomes of calling a function decorated with
`api_request`: a returned dict, a raised `APIError(status, desc)`
(src/ifunnyapi/exceptions.py), or a raised `KeyError` on a missing key. -/
inductive PyOutcome (V : Type) where
  | ok : RespDict V → PyOutcome V
  | apiError : V → V → PyOutcome V
  | keyError : String → PyOutcome V
  deriving DecidableEq, Repr

/-- Shallow embedding of the `api_request` decorator (src/ifunnyapi/utils.py)
applied to a call whose undecorated result is `retv`:
`if "error" in retv: raise APIError(retv["status"], retv["error_description"])`
(arguments evaluated left to right, so a missing `"status"` raises `KeyError`
before `APIError` is constructed), `return retv` otherwise. -/
def api_request {V : Type} (retv : RespDict V) : PyOutcome V :=
  if (getKey retv "error").isSome then
    match getKey retv "status" with
    | none => PyOutcome.keyError "status"
    | some st =>
      match getKey retv "error_description" with
      | none => PyOutcome.keyError "error_description"
      | some desc => PyOutcome.apiError st desc
  else PyOutcome.ok retv

/-! ## Helper predicates and lemmas -/

/-- The trace records the oracle's answers: entry `i` of the trace is the
request issued as fetch number `i` together with exactly the oracle's answer
to it.  In particular each fetch is issued once (no retries). -/
def FaithfulTo (O : Oracle Item Cursor E) (tr : Trace Item Cursor E) : Prop :=
  ∀ i req res, tr[i]? = some (req, res) → O i req = res

/-- Entry `i` of the trace is a cursor-following fetch: its `"next"` param is
the cursor of the page returned by the previous fetch. -/
def ChainBack (tr : Trace Item Cursor E) (i : Nat) : Prop :=
  ∀ req res, tr[i]? = some (req, res) →
    ∃ preq p, tr[i - 1]? = some (preq, Except.ok p) ∧ req.next = some p.next

@[simp] lemma entryItems_ok (req : FetchRequest Cursor) (p : Page Item Cursor) :
    entryItems ((req, Except.ok p) :
      FetchRequest Cursor × Except E (Page Item Cursor)) = p.items := rfl

@[simp] lemma entryItems_error (req : FetchRequest Cursor) (e : E) :
    entryItems ((req, Except.error e) :
      FetchRequest Cursor × Except E (Page Item Cursor)) = ([] : List Item) := rfl

@[simp] lemma traceItems_nil : traceItems ([] : Trace Item Cursor E) = [] := rfl

@[simp] lemma traceItems_cons (x : FetchRequest Cursor × Except E (Page Item Cursor))
    (tr : Trace Item Cursor E) :
    traceItems (x :: tr) = entryItems x ++ traceItems tr := rfl

@[simp] lemma traceItems_append (t₁ t₂ : Trace Item Cursor E) :
    traceItems (t₁ ++ t₂) = traceItems t₁ ++ traceItems t₂ := by
  simp [traceItems]

lemma faithfulTo_nil (O : Oracle Item Cursor E) : FaithfulTo O [] := by
  intro i req res h
  simp at h

lemma faithfulTo_concat {O : Oracle Item Cursor E} {tr : Trace Item Cursor E}
    {req : FetchRequest Cursor} {res : Except E (Page Item Cursor)}
    (hf : FaithfulTo O tr) (hO : O tr.length req = res) :
    FaithfulTo O (tr ++ [(req, res)]) := by
  intro i q r h
  by_cases hi : i < tr.length
  · rw [List.getElem?_append_left hi] at h
    exact hf i q r h
  · have hlen : i < tr.length + 1 := by
      have := List.getElem?_eq_some_iff.1 h
      simpa using this.1
    have hieq : i = tr.length := by omega
    subst hieq
    rw [List.getElem?_concat_length] at h
    obtain ⟨rfl, rfl⟩ := Prod.mk.injEq .. ▸ (Option.some.inj h)
    exact hO

lemma pagingLoop_faithful (O : Oracle Item Cursor E) (lnone : Bool) (val : Int) :
    ∀ (fuel : Nat) (s s' : PagingState Item Cursor E) (oe : Option E),
      pagingLoop O lnone val fuel s = some (s', oe) →
      FaithfulTo O s.trace → FaithfulTo O s'.trace := by
  intro fuel
  induction fuel with
  | zero =>
    intro s s' oe h hf
    unfold pagingLoop at h
    split at h
    · exact absurd h (by simp)
    · obtain ⟨h1, h2⟩ := Prod.mk.injEq .. ▸ Option.some.inj h
      exact h1 ▸ hf
  | succ fuel ih =>
    intro s s' oe h hf
    unfold pagingLoop at h
    split at h
    · split at h
      next p hp =>
        exact ih _ _ _ h (faithfulTo_concat hf hp)
      next e he =>
        obtain ⟨h1, h2⟩ := Prod.mk.injEq .. ▸ Option.some.inj h
        exact h1 ▸ faithfulTo_concat hf he
    · obtain ⟨h1, h2⟩ := Prod.mk.injEq .. ▸ Option.some.inj h
      exact h1 ▸ hf

/-- What a clean loop exit guarantees: the trace grew by a block `tr₁` of
successful, size-100, cursor-carrying fetches; the items grew by exactly the
items of that block, in order; `lbuffer` counted the iterations; the loop
condition is false at the exit state; and in the bounded mode `lbuffer` never
overshoots `val`. -/
lemma pagingLoop_exit_spec (O : Oracle Item Cursor E) (lnone : Bool) (val : Int) :
    ∀ (fuel : Nat) (s s' : PagingState Item Cursor E),
      pagingLoop O lnone val fuel s = some (s', none) →
      ∃ tr₁ : Trace Item Cursor E,
        s'.trace = s.trace ++ tr₁ ∧
        s'.items = s.items ++ traceItems tr₁ ∧
        s'.lbuffer = s.lbuffer + tr₁.length ∧
        (∀ x ∈ tr₁, (∃ p, x.2 = Except.ok p) ∧ x.1.limit = 100 ∧
          (x.1.next).isSome = true) ∧
        loopCond lnone val s' = false ∧
        (lnone = false → s'.lbuffer ≤ val ∨ s'.lbuffer = s.lbuffer) := by
  intro fuel
  induction fuel with
  | zero =>
    intro s s' h
    unfold pagingLoop at h
    split at h
    · exact absurd h (by simp)
    next hcond =>
      obtain ⟨h1, _⟩ := Prod.mk.injEq .. ▸ Option.some.inj h
      subst h1
      exact ⟨[], by simp, by simp, by simp, by simp, by simpa using hcond,
        fun _ => Or.inr rfl⟩
  | succ fuel ih =>
    intro s s' h
    unfold pagingLoop at h
    split at h
    next hcond =>
      split at h
      next p hp =>
        obtain ⟨tr₂, htr, hit, hlb, hall, hcondf, hbnd⟩ := ih _ _ h
        refine ⟨(⟨100, some s.batch.next⟩, Except.ok p) :: tr₂, ?_, ?_, ?_, ?_, hcondf, ?_⟩
        · simpa using htr
        · simpa using hit
        · simp only [List.length_cons] at *
          push_cast at hlb ⊢
          omega
        · intro x hx
          rcases List.mem_cons.1 hx with rfl | hx'
          · exact ⟨⟨p, rfl⟩, rfl, rfl⟩
          · exact hall x hx'
        · intro hln
          subst hln
          have hlt : s.lbuffer < val := by
            simp [loopCond] at hcond
            exact hcond.2
          rcases hbnd rfl with h1 | h1
          · exact Or.inl h1
          · exact Or.inl (by simp only [List.length_cons] at *; omega)
      next e he =>
        exact absurd (Prod.mk.injEq .. ▸ Option.some.inj h).2 (by simp)
    next hcond =>
      obtain ⟨h1, _⟩ := Prod.mk.injEq .. ▸ Option.some.inj h
      subst h1
      exact ⟨[], by simp, by simp, by simp, by simp, by simpa using hcond,
        fun _ => Or.inr rfl⟩

/-- What an error exit of the loop guarantees: the trace grew by a block of
successful size-100 fetches followed by the single failing fetch, which also
requested size 100 with a cursor. -/
lemma pagingLoop_err_spec (O : Oracle Item Cursor E) (lnone : Bool) (val : Int) :
    ∀ (fuel : Nat) (s s' : PagingState Item Cursor E) (e : E),
      pagingLoop O lnone val fuel s = some (s', some e) →
      ∃ (tr₁ : Trace Item Cursor E) (req : FetchRequest Cursor),
        s'.trace = s.trace ++ tr₁ ++ [(req, Except.error e)] ∧
        (∀ x ∈ tr₁, (∃ p, x.2 = Except.ok p) ∧ x.1.limit = 100 ∧
          (x.1.next).isSome = true) ∧
        req.limit = 100 ∧ (req.next).isSome = true := by
  intro fuel
  induction fuel with
  | zero =>
    intro s s' e h
    unfold pagingLoop at h
    split at h
    · exact absurd h (by simp)
    · exact absurd (Prod.mk.injEq .. ▸ Option.some.inj h).2 (by simp)
  | succ fuel ih =>
    intro s s' e h
    unfold pagingLoop at h
    split at h
    next hcond =>
      split at h
      next p hp =>
        obtain ⟨tr₂, req, htr, hall, hreq⟩ := ih _ _ _ h
        refine ⟨(⟨100, some s.batch.next⟩, Except.ok p) :: tr₂, req, ?_, ?_, hreq⟩
        · simpa using htr
        · intro x hx
          rcases List.mem_cons.1 hx with rfl | hx'
          · exact ⟨⟨p, rfl⟩, rfl, rfl⟩
          · exact hall x hx'
      next e' he =>
        obtain ⟨h1, h2⟩ := Prod.mk.injEq .. ▸ Option.some.inj h
        obtain rfl : e' = e := by simpa using h2
        subst h1
        exact ⟨[], ⟨100, some s.batch.next⟩, by simp, by simp, rfl, rfl⟩
    · exact absurd (Prod.mk.injEq .. ▸ Option.some.inj h).2 (by simp)

/-- Every trace entry added by the loop is a cursor-following fetch: its
`"next"` param is the cursor of the page the previous fetch returned.  The
hypothesis says the last entry of the incoming trace holds the current
`batch`, which `_get_paging_items` establishes before entering the loop. -/
lemma pagingLoop_chain (O : Oracle Item Cursor E) (lnone : Bool) (val : Int) :
    ∀ (fuel : Nat) (s s' : PagingState Item Cursor E) (oe : Option E),
      pagingLoop O lnone val fuel s = some (s', oe) →
      (∃ preq, s.trace[s.trace.length - 1]? = some (preq, Except.ok s.batch)) →
      (∃ ext, s'.trace = s.trace ++ ext) ∧
      (∀ i, s.trace.length ≤ i → ChainBack s'.trace i) ∧
      (oe = none →
        ∃ preq, s'.trace[s'.trace.length - 1]? = some (preq, Except.ok s'.batch)) := by
  intro fuel
  induction fuel with
  | zero =>
    intro s s' oe h hlast
    unfold pagingLoop at h
    split at h
    · exact absurd h (by simp)
    · obtain ⟨h1, _⟩ := Prod.mk.injEq .. ▸ Option.some.inj h
      subst h1
      refine ⟨⟨[], by simp⟩, fun i hi => ?_, fun _ => hlast⟩
      intro req res hget
      obtain ⟨hlt, -⟩ := List.getElem?_eq_some_iff.1 hget
      omega
  | succ fuel ih =>
    intro s s' oe h hlast
    obtain ⟨preq, hpreq⟩ := hlast
    have hpos : 0 < s.trace.length := by
      obtain ⟨hlt, -⟩ := List.getElem?_eq_some_iff.1 hpreq
      omega
    unfold pagingLoop at h
    split at h
    next hcond =>
      split at h
      next p hp =>
        have hlast' : ∃ q, (s.trace ++ [(⟨100, some s.batch.next⟩, Except.ok p)])[
            (s.trace ++ [((⟨100, some s.batch.next⟩ : FetchRequest Cursor),
              Except.ok p)]).length - 1]? =
            some (q, Except.ok p) := by
          refine ⟨⟨100, some s.batch.next⟩, ?_⟩
          simp only [List.length_append, List.length_cons, List.length_nil]
          have : s.trace.length + 1 - 1 = s.trace.length := by omega
          rw [this, List.getElem?_concat_length]
        obtain ⟨⟨ext, hext⟩, hchain, hlastout⟩ := ih _ _ _ h hlast'
        simp only at hext
        refine ⟨⟨(⟨100, some s.batch.next⟩, Except.ok p) :: ext, by simpa using hext⟩,
          fun i hi => ?_, hlastout⟩
        by_cases hieq : i = s.trace.length
        · subst hieq
          intro req res hget
          refine ⟨preq, s.batch, ?_, ?_⟩
          · rw [hext]
            rw [List.getElem?_append_left (by simp; omega)]
            rw [List.getElem?_append_left (by omega)]
            exact hpreq
          · have : (s.trace ++ [((⟨100, some s.batch.next⟩ : FetchRequest Cursor),
                Except.ok p)])[s.trace.length]? =
                some ((⟨100, some s.batch.next⟩ : FetchRequest Cursor), Except.ok p) :=
              List.getElem?_concat_length ..
            rw [hext, List.getElem?_append_left (by simp), this] at hget
            obtain ⟨h1, _⟩ := Prod.mk.injEq .. ▸ Option.some.inj hget
            rw [← h1]
        · exact hchain i (by simp; omega)
      next e he =>
        obtain ⟨h1, h2⟩ := Prod.mk.injEq .. ▸ Option.some.inj h
        subst h1
        refine ⟨⟨[(⟨100, some s.batch.next⟩, Except.error e)], by simp⟩,
          fun i hi => ?_, fun hoe => absurd (h2 ▸ hoe) (by simp)⟩
        intro req res hget
        simp only at hget
        obtain ⟨hilen, -⟩ := List.getElem?_eq_some_iff.1 hget
        simp only [List.length_append, List.length_cons, List.length_nil] at hilen
        have hieq : i = s.trace.length := by omega
        subst hieq
        refine ⟨preq, s.batch, ?_, ?_⟩
        · rw [List.getElem?_append_left (by omega)]
          exact hpreq
        · have : (s.trace ++ [((⟨100, some s.batch.next⟩ : FetchRequest Cursor),
              Except.error e)])[s.trace.length]? =
              some ((⟨100, some s.batch.next⟩ : FetchRequest Cursor), Except.error e) :=
            List.getElem?_concat_length ..
          rw [this] at hget
          obtain ⟨h1, _⟩ := Prod.mk.injEq .. ▸ Option.some.inj hget
          rw [← h1]
    next hcond =>
      obtain ⟨h1, _⟩ := Prod.mk.injEq .. ▸ Option.some.inj h
      subst h1
      refine ⟨⟨[], by simp⟩, fun i hi => ?_, fun _ => ⟨preq, hpreq⟩⟩
      intro req res hget
      obtain ⟨hlt, -⟩ := List.getElem?_eq_some_iff.1 hget
      omega

/-- In the unbounded mode the loop only iterates while the current `batch`
reports `hasNext`.  Consequently, if every non-final page of the incoming
trace reports `hasNext = true` (and the last entry holds the current batch),
the same holds for the trace at every later point of the loop. -/
lemma pagingLoop_hasNext (O : Oracle Item Cursor E) (val : Int) :
    ∀ (fuel : Nat) (s s' : PagingState Item Cursor E) (oe : Option E),
      pagingLoop O true val fuel s = some (s', oe) →
      (∃ preq, s.trace[s.trace.length - 1]? = some (preq, Except.ok s.batch)) →
      (∀ i req p, i + 1 < s.trace.length →
        s.trace[i]? = some (req, Except.ok p) → p.hasNext = true) →
      (∀ i req p, i + 1 < s'.trace.length →
        s'.trace[i]? = some (req, Except.ok p) → p.hasNext = true) := by
  intro fuel
  induction fuel with
  | zero =>
    intro s s' oe h hlast hpre
    unfold pagingLoop at h
    split at h
    · exact absurd h (by simp)
    · obtain ⟨h1, _⟩ := Prod.mk.injEq .. ▸ Option.some.inj h
      exact h1 ▸ hpre
  | succ fuel ih =>
    intro s s' oe h hlast hpre
    obtain ⟨preq, hpreq⟩ := hlast
    have hpos : 0 < s.trace.length := by
      obtain ⟨hlt, -⟩ := List.getElem?_eq_some_iff.1 hpreq
      omega
    unfold pagingLoop at h
    split at h
    next hcond =>
      have hbn : s.batch.hasNext = true := by simpa [loopCond] using hcond
      have hpre' : ∀ (tl : FetchRequest Cursor × Except E (Page Item Cursor)),
          ∀ i req p, i + 1 < (s.trace ++ [tl]).length →
          (s.trace ++ [tl])[i]? = some (req, Except.ok p) → p.hasNext = true := by
        intro tl i req p hilen hget
        simp only [List.length_append, List.length_cons, List.length_nil] at hilen
        rw [List.getElem?_append_left (by omega)] at hget
        by_cases hi2 : i + 1 < s.trace.length
        · exact hpre i req p hi2 hget
        · have : i = s.trace.length - 1 := by omega
          subst this
          rw [hpreq] at hget
          obtain ⟨-, h2⟩ := Prod.mk.injEq .. ▸ Option.some.inj hget
          have : p = s.batch := by simpa using h2.symm
          rw [this]
          exact hbn
      split at h
      next p hp =>
        refine ih _ _ _ h ⟨⟨100, some s.batch.next⟩, ?_⟩ (hpre' _)
        simp only [List.length_append, List.length_cons, List.length_nil]
        have : s.trace.length + 1 - 1 = s.trace.length := by omega
        rw [this, List.getElem?_concat_length]
      next e he =>
        obtain ⟨h1, _⟩ := Prod.mk.injEq .. ▸ Option.some.inj h
        exact h1 ▸ hpre' _
    · obtain ⟨h1, _⟩ := Prod.mk.injEq .. ▸ Option.some.inj h
      exact h1 ▸ hpre

/-- If the oracle never fails and the fuel is at least `val - lbuffer`, the
bounded loop terminates cleanly. -/
lemma pagingLoop_total (O : Oracle Item Cursor E) (val : Int)
    (hO : ∀ i r, ∃ p, O i r = Except.ok p) :
    ∀ (fuel : Nat) (s : PagingState Item Cursor E),
      (val - s.lbuffer).toNat ≤ fuel →
      ∃ s', pagingLoop O false val fuel s = some (s', none) := by
  intro fuel
  induction fuel with
  | zero =>
    intro s hfuel
    have hcond : loopCond false val s = false := by
      simp only [loopCond, if_neg (by simp : ¬(false = true))]
      simp only [Bool.and_eq_false_iff, decide_eq_false_iff_not, not_le, not_lt]
      omega
    exact ⟨s, by unfold pagingLoop; rw [hcond]; simp⟩
  | succ fuel ih =>
    intro s hfuel
    by_cases hcond : loopCond false val s = true
    · have hlt : s.lbuffer < val := by
        simp [loopCond] at hcond
        exact hcond.2
      obtain ⟨p, hp⟩ := hO s.trace.length ⟨100, some s.batch.next⟩
      obtain ⟨s', hs'⟩ := ih
        ⟨s.lbuffer + 1, p, s.items ++ p.items,
          s.trace ++ [(⟨100, some s.batch.next⟩, Except.ok p)]⟩
        (by simp only; omega)
      refine ⟨s', ?_⟩
      unfold pagingLoop
      rw [hcond]
      simp only [if_true, hp]
      exact hs'
    · refine ⟨s, ?_⟩
      unfold pagingLoop
      rw [Bool.not_eq_true] at hcond
      rw [hcond]
      simp

/-! ## Run-level unfolding lemmas -/

lemma get_paging_items_small_eq (O : Oracle Item Cursor E) {l : Int}
    (fuel : Nat) (hl : l ≤ 100) :
    get_paging_items O (some l) fuel =
      match O 0 ⟨l, none⟩ with
      | Except.error e => some ⟨[(⟨l, none⟩, Except.error e)], Except.error e⟩
      | Except.ok b => some ⟨[(⟨l, none⟩, Except.ok b)], Except.ok b.items⟩ := by
  have h1 : ¬(100 < l) := by omega
  unfold get_paging_items
  simp only [h1, if_false]
  cases hO : O 0 (⟨l, none⟩ : FetchRequest Cursor) <;> simp [hl]

lemma get_paging_items_large_eq (O : Oracle Item Cursor E) {l : Int}
    (fuel : Nat) (hl : 100 < l) :
    get_paging_items O (some l) fuel =
      match O 0 (⟨100, none⟩ : FetchRequest Cursor) with
      | Except.error e => some ⟨[(⟨100, none⟩, Except.error e)], Except.error e⟩
      | Except.ok b =>
        match pagingLoop O false ((l - 100) / 100) fuel
            ⟨0, b, b.items, [(⟨100, none⟩, Except.ok b)]⟩ with
        | none => none
        | some (s, some e) => some ⟨s.trace, Except.error e⟩
        | some (s, none) =>
            some (finishFetch O s ⟨(l - 100) % 100, none⟩) := by
  have h1 : ¬(l ≤ 100) := by omega
  unfold get_paging_items
  simp only [hl, if_true]
  cases hO : O 0 (⟨100, none⟩ : FetchRequest Cursor) <;> simp [hO, h1]

lemma get_paging_items_none_eq (O : Oracle Item Cursor E) (fuel : Nat) :
    get_paging_items O none fuel =
      match O 0 (⟨100, none⟩ : FetchRequest Cursor) with
      | Except.error e => some ⟨[(⟨100, none⟩, Except.error e)], Except.error e⟩
      | Except.ok b =>
        match pagingLoop O true 0 fuel ⟨0, b, b.items, [(⟨100, none⟩, Except.ok b)]⟩ with
        | none => none
        | some (s, some e) => some ⟨s.trace, Except.error e⟩
        | some (s, none) => some (finishFetch O s ⟨100, some s.batch.next⟩) := by
  unfold get_paging_items
  cases hO : O 0 (⟨100, none⟩ : FetchRequest Cursor) <;> simp [hO]

lemma faithfulTo_singleton {O : Oracle Item Cursor E} {req : FetchRequest Cursor}
    {res : Except E (Page Item Cursor)} (hO : O 0 req = res) :
    FaithfulTo O [(req, res)] := by
  intro i q r h
  match i with
  | 0 =>
    simp only [List.getElem?_cons_zero, Option.some.injEq] at h
    obtain ⟨h1, h2⟩ := Prod.mk.injEq .. ▸ h
    rw [← h1, ← h2]
    exact hO
  | i + 1 => simp at h

lemma finishFetch_faithful {O : Oracle Item Cursor E} {s : PagingState Item Cursor E}
    {req : FetchRequest Cursor} (hf : FaithfulTo O s.trace) :
    FaithfulTo O (finishFetch O s req).trace := by
  cases hO : O s.trace.length req <;>
    simp only [finishFetch, hO] <;> exact faithfulTo_concat hf hO

/-- Every trace produced by a `_get_paging_items` run records, at position
`i`, the request of fetch number `i` together with exactly the oracle's answer
to it: responses are surfaced unchanged and no fetch is retried. -/
lemma run_faithful (O : Oracle Item Cursor E) (limit : Option Int) (fuel : Nat)
    (r : RunResult Item Cursor E)
    (h : get_paging_items O limit fuel = some r) :
    FaithfulTo O r.trace := by
  match limit with
  | some l =>
    by_cases hl : l ≤ 100
    · rw [get_paging_items_small_eq O fuel hl] at h
      cases hO : O 0 (⟨l, none⟩ : FetchRequest Cursor) with
      | error e =>
        simp only [hO] at h
        obtain rfl := Option.some.inj h
        exact faithfulTo_singleton hO
      | ok p0 =>
        simp only [hO] at h
        obtain rfl := Option.some.inj h
        exact faithfulTo_singleton hO
    · have hl' : 100 < l := by omega
      rw [get_paging_items_large_eq O fuel hl'] at h
      cases hO : O 0 (⟨100, none⟩ : FetchRequest Cursor) with
      | error e =>
        simp only [hO] at h
        obtain rfl := Option.some.inj h
        exact faithfulTo_singleton hO
      | ok p0 =>
        simp only [hO] at h
        cases hloop : pagingLoop O false ((l - 100) / 100) fuel
            ⟨0, p0, p0.items, [(⟨100, none⟩, Except.ok p0)]⟩ with
        | none =>
          simp only [hloop] at h
          exact absurd h (by simp)
        | some pr =>
          obtain ⟨s, oe⟩ := pr
          have hsf : FaithfulTo O s.trace :=
            pagingLoop_faithful O false ((l - 100) / 100) fuel _ s oe hloop
              (faithfulTo_singleton hO)
          cases oe with
          | none =>
            simp only [hloop] at h
            obtain rfl := Option.some.inj h
            exact finishFetch_faithful hsf
          | some e =>
            simp only [hloop] at h
            obtain rfl := Option.some.inj h
            exact hsf
  | none =>
    rw [get_paging_items_none_eq O fuel] at h
    cases hO : O 0 (⟨100, none⟩ : FetchRequest Cursor) with
    | error e =>
      simp only [hO] at h
      obtain rfl := Option.some.inj h
      exact faithfulTo_singleton hO
    | ok p0 =>
      simp only [hO] at h
      cases hloop : pagingLoop O true 0 fuel
          ⟨0, p0, p0.items, [(⟨100, none⟩, Except.ok p0)]⟩ with
      | none =>
        simp only [hloop] at h
        exact absurd h (by simp)
      | some pr =>
        obtain ⟨s, oe⟩ := pr
        have hsf : FaithfulTo O s.trace :=
          pagingLoop_faithful O true 0 fuel _ s oe hloop (faithfulTo_singleton hO)
        cases oe with
        | none =>
          simp only [hloop] at h
          obtain rfl := Option.some.inj h
          exact finishFetch_faithful hsf
        | some e =>
          simp only [hloop] at h
          obtain rfl := Option.some.inj h
          exact hsf

lemma chainBack_append {tr ext : Trace Item Cursor E} {i : Nat}
    (hi : i < tr.length) (hc : ChainBack tr i) : ChainBack (tr ++ ext) i := by
  intro req res h
  rw [List.getElem?_append_left hi] at h
  obtain ⟨preq, p, h1, h2⟩ := hc req res h
  refine ⟨preq, p, ?_, h2⟩
  rw [List.getElem?_append_left (by omega : i - 1 < tr.length)]
  exact h1

/-- Full decomposition of a successful `limit > 100` run: a first size-100
fetch, `(limit - 100) / 100` cursor-following size-100 fetches, and a final
fetch of size `(limit - 100) % 100` carrying no cursor, with the items
concatenated in fetch order. -/
lemma run_large_ok (O : Oracle Item Cursor E) {l : Int} {fuel : Nat}
    {tr : Trace Item Cursor E} {its : List Item} (hl : 100 < l)
    (h : get_paging_items O (some l) fuel = some ⟨tr, Except.ok its⟩) :
    ∃ (p0 pF : Page Item Cursor) (tr₁ : Trace Item Cursor E),
      O 0 ⟨100, none⟩ = Except.ok p0 ∧
      tr = (⟨100, none⟩, Except.ok p0) ::
        (tr₁ ++ [(⟨(l - 100) % 100, none⟩, Except.ok pF)]) ∧
      tr₁.length = ((l - 100) / 100).toNat ∧
      (∀ x ∈ tr₁, (∃ p, x.2 = Except.ok p) ∧ x.1.limit = 100 ∧
        (x.1.next).isSome = true) ∧
      its = p0.items ++ traceItems tr₁ ++ pF.items ∧
      (∀ i, 1 ≤ i → i + 1 < tr.length → ChainBack tr i) := by
  rw [get_paging_items_large_eq O fuel hl] at h
  cases hO : O 0 (⟨100, none⟩ : FetchRequest Cursor) with
  | error e =>
    simp only [hO] at h
    exact absurd (RunResult.mk.injEq .. ▸ Option.some.inj h).2 (by simp)
  | ok p0 =>
    simp only [hO] at h
    cases hloop : pagingLoop O false ((l - 100) / 100) fuel
        ⟨0, p0, p0.items, [(⟨100, none⟩, Except.ok p0)]⟩ with
    | none =>
      simp only [hloop] at h
      exact absurd h (by simp)
    | some pr =>
      obtain ⟨s, oe⟩ := pr
      cases oe with
      | some e =>
        simp only [hloop] at h
        exact absurd (RunResult.mk.injEq .. ▸ Option.some.inj h).2 (by simp)
      | none =>
        simp only [hloop] at h
        obtain ⟨tr₁, htr, hit, hlb, hall, hcond, hbnd⟩ :=
          pagingLoop_exit_spec O false ((l - 100) / 100) fuel _ s hloop
        simp only at htr hit hlb
        have hchain := pagingLoop_chain O false ((l - 100) / 100) fuel _ s none
          hloop ⟨⟨100, none⟩, by simp⟩
        obtain ⟨-, hchain, -⟩ := hchain
        have hval : 0 ≤ (l - 100) / 100 :=
          Int.ediv_nonneg (by omega) (by omega)
        have h0 : (0 : Int) ≤ s.lbuffer := by
          rw [hlb]; positivity
        have hge : (l - 100) / 100 ≤ s.lbuffer := by
          by_contra hx
          have : loopCond false ((l - 100) / 100) s = true := by
            simp [loopCond, h0]
            omega
          rw [hcond] at this
          exact absurd this (by simp)
        have hbnd' := hbnd rfl
        simp only at hbnd'
        have hlbval : s.lbuffer = (l - 100) / 100 := by
          rcases hbnd' with h' | h' <;> omega
        have hlen1 : tr₁.length = ((l - 100) / 100).toNat := by
          omega
        unfold finishFetch at h
        cases hOF : O s.trace.length ⟨(l - 100) % 100, none⟩ with
        | error e =>
          simp only [hOF] at h
          exact absurd (RunResult.mk.injEq .. ▸ Option.some.inj h).2 (by simp)
        | ok pF =>
          simp only [hOF] at h
          obtain ⟨h1, h2⟩ := RunResult.mk.injEq .. ▸ Option.some.inj h
          obtain rfl : tr = s.trace ++ [(⟨(l - 100) % 100, none⟩, Except.ok pF)] :=
            h1.symm
          obtain rfl : its = s.items ++ pF.items := by
            simpa using h2.symm
          refine ⟨p0, pF, tr₁, rfl, ?_, hlen1, hall, ?_, ?_⟩
          · rw [htr]
            simp
          · rw [hit]
          · intro i hi1 hilen
            simp only [List.length_append, List.length_cons, List.length_nil] at hilen
            have hilt : i < s.trace.length := by omega
            refine chainBack_append hilt (hchain i ?_)
            simp only [List.length_cons, List.length_nil]
            omega

/-- Full decomposition of a successful unbounded (`limit = None`) run: a first
size-100 fetch, cursor-following size-100 fetches while `hasNext` held, the
page at position `length - 2` being the first with `hasNext = false`, and one
extra trailing size-100 fetch following that page's cursor, with the items
concatenated in fetch order. -/
lemma run_none_ok (O : Oracle Item Cursor E) {fuel : Nat}
    {tr : Trace Item Cursor E} {its : List Item}
    (h : get_paging_items O none fuel = some ⟨tr, Except.ok its⟩) :
    ∃ (p0 pLast pF : Page Item Cursor) (tr₁ : Trace Item Cursor E)
      (preqL : FetchRequest Cursor),
      O 0 ⟨100, none⟩ = Except.ok p0 ∧
      tr = (⟨100, none⟩, Except.ok p0) ::
        (tr₁ ++ [(⟨100, some pLast.next⟩, Except.ok pF)]) ∧
      (∀ x ∈ tr₁, (∃ p, x.2 = Except.ok p) ∧ x.1.limit = 100 ∧
        (x.1.next).isSome = true) ∧
      tr[tr.length - 2]? = some (preqL, Except.ok pLast) ∧
      pLast.hasNext = false ∧
      (∀ i req p, i + 2 < tr.length → tr[i]? = some (req, Except.ok p) →
        p.hasNext = true) ∧
      its = p0.items ++ traceItems tr₁ ++ pF.items := by
  rw [get_paging_items_none_eq O fuel] at h
  cases hO : O 0 (⟨100, none⟩ : FetchRequest Cursor) with
  | error e =>
    simp only [hO] at h
    exact absurd (RunResult.mk.injEq .. ▸ Option.some.inj h).2 (by simp)
  | ok p0 =>
    simp only [hO] at h
    cases hloop : pagingLoop O true 0 fuel
        ⟨0, p0, p0.items, [(⟨100, none⟩, Except.ok p0)]⟩ with
    | none =>
      simp only [hloop] at h
      exact absurd h (by simp)
    | some pr =>
      obtain ⟨s, oe⟩ := pr
      cases oe with
      | some e =>
        simp only [hloop] at h
        exact absurd (RunResult.mk.injEq .. ▸ Option.some.inj h).2 (by simp)
      | none =>
        simp only [hloop] at h
        obtain ⟨tr₁, htr, hit, hlb, hall, hcond, -⟩ :=
          pagingLoop_exit_spec O true 0 fuel _ s hloop
        simp only at htr hit
        obtain ⟨-, -, hlastf⟩ := pagingLoop_chain O true 0 fuel _ s none
          hloop ⟨⟨100, none⟩, by simp⟩
        obtain ⟨preqL, hpreqL⟩ := hlastf rfl
        have hbatchfalse : s.batch.hasNext = false := by
          simpa [loopCond] using hcond
        have hpre := pagingLoop_hasNext O 0 fuel _ s none hloop
          ⟨⟨100, none⟩, by simp⟩ (by
            intro i req p h1 h2
            simp only [List.length_cons, List.length_nil] at h1
            omega)
        have hslen : 1 ≤ s.trace.length := by
          rw [htr]
          simp
        unfold finishFetch at h
        cases hOF : O s.trace.length ⟨100, some s.batch.next⟩ with
        | error e =>
          simp only [hOF] at h
          exact absurd (RunResult.mk.injEq .. ▸ Option.some.inj h).2 (by simp)
        | ok pF =>
          simp only [hOF] at h
          obtain ⟨h1, h2⟩ := RunResult.mk.injEq .. ▸ Option.some.inj h
          obtain rfl : tr = s.trace ++ [(⟨100, some s.batch.next⟩, Except.ok pF)] :=
            h1.symm
          obtain rfl : its = s.items ++ pF.items := by
            simpa using h2.symm
          refine ⟨p0, s.batch, pF, tr₁, preqL, rfl, ?_, hall, ?_, hbatchfalse, ?_, ?_⟩
          · rw [htr]
            simp
          · have hlen2 : (s.trace ++
                [((⟨100, some s.batch.next⟩ : FetchRequest Cursor),
                  Except.ok pF)]).length - 2 = s.trace.length - 1 := by
              simp only [List.length_append, List.length_cons, List.length_nil]
              omega
            rw [hlen2, List.getElem?_append_left (by omega)]
            exact hpreqL
          · intro i req p hi hget
            simp only [List.length_append, List.length_cons, List.length_nil] at hi
            rw [List.getElem?_append_left (by omega)] at hget
            exact hpre i req p (by omega) hget
          · rw [hit]

/-- Decomposition of a failing run: the trace is a block of successful
fetches followed by the single failing fetch, whose error is exactly the
oracle's answer at that point; the run returns the error and none of the
items already fetched. -/
lemma run_err (O : Oracle Item Cursor E) {limit : Option Int} {fuel : Nat}
    {tr : Trace Item Cursor E} {e : E}
    (h : get_paging_items O limit fuel = some ⟨tr, Except.error e⟩) :
    ∃ (tr₀ : Trace Item Cursor E) (req : FetchRequest Cursor),
      tr = tr₀ ++ [(req, Except.error e)] ∧
      (∀ x ∈ tr₀, ∃ p, x.2 = Except.ok p) ∧
      O tr₀.length req = Except.error e := by
  have hfa := run_faithful O limit fuel ⟨tr, Except.error e⟩ h
  have final : ∀ (tr₀ : Trace Item Cursor E) (req : FetchRequest Cursor),
      tr = tr₀ ++ [(req, Except.error e)] →
      (∀ x ∈ tr₀, ∃ p, x.2 = Except.ok p) →
      ∃ (tr₀ : Trace Item Cursor E) (req : FetchRequest Cursor),
        tr = tr₀ ++ [(req, Except.error e)] ∧
        (∀ x ∈ tr₀, ∃ p, x.2 = Except.ok p) ∧
        O tr₀.length req = Except.error e := by
    intro tr₀ req htr hok
    refine ⟨tr₀, req, htr, hok, ?_⟩
    apply hfa tr₀.length
    show tr[tr₀.length]? = _
    rw [htr]
    exact List.getElem?_concat_length ..
  match limit with
  | some l =>
    by_cases hl : l ≤ 100
    · rw [get_paging_items_small_eq O fuel hl] at h
      cases hO : O 0 (⟨l, none⟩ : FetchRequest Cursor) with
      | error e' =>
        simp only [hO] at h
        obtain ⟨h1, h2⟩ := RunResult.mk.injEq .. ▸ Option.some.inj h
        obtain rfl : e' = e := by simpa using h2
        exact final [] ⟨l, none⟩ (by rw [← h1]; simp) (by simp)
      | ok p0 =>
        simp only [hO] at h
        exact absurd (RunResult.mk.injEq .. ▸ Option.some.inj h).2 (by simp)
    · have hl' : 100 < l := by omega
      rw [get_paging_items_large_eq O fuel hl'] at h
      cases hO : O 0 (⟨100, none⟩ : FetchRequest Cursor) with
      | error e' =>
        simp only [hO] at h
        obtain ⟨h1, h2⟩ := RunResult.mk.injEq .. ▸ Option.some.inj h
        obtain rfl : e' = e := by simpa using h2
        exact final [] ⟨100, none⟩ (by rw [← h1]; simp) (by simp)
      | ok p0 =>
        simp only [hO] at h
        cases hloop : pagingLoop O false ((l - 100) / 100) fuel
            ⟨0, p0, p0.items, [(⟨100, none⟩, Except.ok p0)]⟩ with
        | none =>
          simp only [hloop] at h
          exact absurd h (by simp)
        | some pr =>
          obtain ⟨s, oe⟩ := pr
          cases oe with
          | some e' =>
            simp only [hloop] at h
            obtain ⟨h1, h2⟩ := RunResult.mk.injEq .. ▸ Option.some.inj h
            obtain rfl : e' = e := by simpa using h2
            obtain ⟨tr₁, req, htr, hall, -, -⟩ :=
              pagingLoop_err_spec O false ((l - 100) / 100) fuel _ s e' hloop
            simp only at htr
            refine final ([(⟨100, none⟩, Except.ok p0)] ++ tr₁) req ?_ ?_
            · rw [← h1, htr]
            · intro x hx
              rcases List.mem_append.1 hx with hx' | hx'
              · obtain rfl := List.mem_singleton.1 hx'
                exact ⟨p0, rfl⟩
              · exact (hall x hx').1
          | none =>
            simp only [hloop] at h
            obtain ⟨tr₁, htr, -, -, hall, -, -⟩ :=
              pagingLoop_exit_spec O false ((l - 100) / 100) fuel _ s hloop
            simp only at htr
            unfold finishFetch at h
            cases hOF : O s.trace.length ⟨(l - 100) % 100, none⟩ with
            | ok pF =>
              simp only [hOF] at h
              exact absurd (RunResult.mk.injEq .. ▸ Option.some.inj h).2 (by simp)
            | error e' =>
              simp only [hOF] at h
              obtain ⟨h1, h2⟩ := RunResult.mk.injEq .. ▸ Option.some.inj h
              obtain rfl : e' = e := by simpa using h2
              refine final s.trace ⟨(l - 100) % 100, none⟩ (by rw [← h1]) ?_
              intro x hx
              rw [htr] at hx
              rcases List.mem_append.1 hx with hx' | hx'
              · obtain rfl := List.mem_singleton.1 hx'
                exact ⟨p0, rfl⟩
              · exact (hall x hx').1
  | none =>
    rw [get_paging_items_none_eq O fuel] at h
    cases hO : O 0 (⟨100, none⟩ : FetchRequest Cursor) with
    | error e' =>
      simp only [hO] at h
      obtain ⟨h1, h2⟩ := RunResult.mk.injEq .. ▸ Option.some.inj h
      obtain rfl : e' = e := by simpa using h2
      exact final [] ⟨100, none⟩ (by rw [← h1]; simp) (by simp)
    | ok p0 =>
      simp only [hO] at h
      cases hloop : pagingLoop O true 0 fuel
          ⟨0, p0, p0.items, [(⟨100, none⟩, Except.ok p0)]⟩ with
      | none =>
        simp only [hloop] at h
        exact absurd h (by simp)
      | some pr =>
        obtain ⟨s, oe⟩ := pr
        cases oe with
        | some e' =>
          simp only [hloop] at h
          obtain ⟨h1, h2⟩ := RunResult.mk.injEq .. ▸ Option.some.inj h
          obtain rfl : e' = e := by simpa using h2
          obtain ⟨tr₁, req, htr, hall, -, -⟩ :=
            pagingLoop_err_spec O true 0 fuel _ s e' hloop
          simp only at htr
          refine final ([(⟨100, none⟩, Except.ok p0)] ++ tr₁) req ?_ ?_
          · rw [← h1, htr]
          · intro x hx
            rcases List.mem_append.1 hx with hx' | hx'
            · obtain rfl := List.mem_singleton.1 hx'
              exact ⟨p0, rfl⟩
            · exact (hall x hx').1
        | none =>
          simp only [hloop] at h
          obtain ⟨tr₁, htr, -, -, hall, -, -⟩ :=
            pagingLoop_exit_spec O true 0 fuel _ s hloop
          simp only at htr
          unfold finishFetch at h
          cases hOF : O s.trace.length ⟨100, some s.batch.next⟩ with
          | ok pF =>
            simp only [hOF] at h
            exact absurd (RunResult.mk.injEq .. ▸ Option.some.inj h).2 (by simp)
          | error e' =>
            simp only [hOF] at h
            obtain ⟨h1, h2⟩ := RunResult.mk.injEq .. ▸ Option.some.inj h
            obtain rfl : e' = e := by simpa using h2
            refine final s.trace ⟨100, some s.batch.next⟩ (by rw [← h1]) ?_
            intro x hx
            rw [htr] at hx
            rcases List.mem_append.1 hx with hx' | hx'
            · obtain rfl := List.mem_singleton.1 hx'
              exact ⟨p0, rfl⟩
            · exact (hall x hx').1

/-- The three shapes a request's `"limit"` param can take in a run with the
given `limit` argument: the fixed loop size 100, the initial size
`min(100, l)`, or the final remainder `(l - 100) % 100`. -/
def reqInRange (limit : Option Int) (req : FetchRequest Cursor) : Prop :=
  req.limit = 100 ∨
    (∃ l, limit = some l ∧ req.limit = if 100 < l then 100 else l) ∨
    (∃ l, limit = some l ∧ req.limit = (l - 100) % 100)

/-- Every request issued by a run (successful or failing) has one of the
three `"limit"` shapes of `reqInRange`. -/
lemma run_req_range (O : Oracle Item Cursor E) (limit : Option Int) (fuel : Nat)
    (r : RunResult Item Cursor E)
    (h : get_paging_items O limit fuel = some r) :
    ∀ x ∈ r.trace, reqInRange limit x.1 := by
  match limit with
  | some l =>
    by_cases hl : l ≤ 100
    · rw [get_paging_items_small_eq O fuel hl] at h
      cases hO : O 0 (⟨l, none⟩ : FetchRequest Cursor) with
      | error e =>
        simp only [hO] at h
        obtain rfl := Option.some.inj h
        intro x hx
        obtain rfl := List.mem_singleton.1 hx
        exact Or.inr (Or.inl ⟨l, rfl, by simp [show ¬(100 < l) by omega]⟩)
      | ok p0 =>
        simp only [hO] at h
        obtain rfl := Option.some.inj h
        intro x hx
        obtain rfl := List.mem_singleton.1 hx
        exact Or.inr (Or.inl ⟨l, rfl, by simp [show ¬(100 < l) by omega]⟩)
    · have hl' : 100 < l := by omega
      rw [get_paging_items_large_eq O fuel hl'] at h
      cases hO : O 0 (⟨100, none⟩ : FetchRequest Cursor) with
      | error e =>
        simp only [hO] at h
        obtain rfl := Option.some.inj h
        intro x hx
        obtain rfl := List.mem_singleton.1 hx
        exact Or.inl rfl
      | ok p0 =>
        simp only [hO] at h
        cases hloop : pagingLoop O false ((l - 100) / 100) fuel
            ⟨0, p0, p0.items, [(⟨100, none⟩, Except.ok p0)]⟩ with
        | none =>
          simp only [hloop] at h
          exact absurd h (by simp)
        | some pr =>
          obtain ⟨s, oe⟩ := pr
          cases oe with
          | some e =>
            simp only [hloop] at h
            obtain rfl := Option.some.inj h
            obtain ⟨tr₁, req, htr, hall, hreq, -⟩ :=
              pagingLoop_err_spec O false ((l - 100) / 100) fuel _ s e hloop
            simp only at htr
            intro x hx
            simp only at hx
            rw [htr] at hx
            rcases List.mem_append.1 hx with hx' | hx'
            · rcases List.mem_append.1 hx' with hx'' | hx''
              · obtain rfl := List.mem_singleton.1 hx''
                exact Or.inl rfl
              · exact Or.inl (hall x hx'').2.1
            · obtain rfl := List.mem_singleton.1 hx'
              exact Or.inl hreq
          | none =>
            simp only [hloop] at h
            obtain ⟨tr₁, htr, -, -, hall, -, -⟩ :=
              pagingLoop_exit_spec O false ((l - 100) / 100) fuel _ s hloop
            simp only at htr
            unfold finishFetch at h
            cases hOF : O s.trace.length ⟨(l - 100) % 100, none⟩ with
            | error e =>
              simp only [hOF] at h
              obtain rfl := Option.some.inj h
              intro x hx
              simp only at hx
              rcases List.mem_append.1 hx with hx' | hx'
              · rw [htr] at hx'
                rcases List.mem_append.1 hx' with hx'' | hx''
                · obtain rfl := List.mem_singleton.1 hx''
                  exact Or.inl rfl
                · exact Or.inl (hall x hx'').2.1
              · obtain rfl := List.mem_singleton.1 hx'
                exact Or.inr (Or.inr ⟨l, rfl, rfl⟩)
            | ok pF =>
              simp only [hOF] at h
              obtain rfl := Option.some.inj h
              intro x hx
              simp only at hx
              rcases List.mem_append.1 hx with hx' | hx'
              · rw [htr] at hx'
                rcases List.mem_append.1 hx' with hx'' | hx''
                · obtain rfl := List.mem_singleton.1 hx''
                  exact Or.inl rfl
                · exact Or.inl (hall x hx'').2.1
              · obtain rfl := List.mem_singleton.1 hx'
                exact Or.inr (Or.inr ⟨l, rfl, rfl⟩)
  | none =>
    rw [get_paging_items_none_eq O fuel] at h
    cases hO : O 0 (⟨100, none⟩ : FetchRequest Cursor) with
    | error e =>
      simp only [hO] at h
      obtain rfl := Option.some.inj h
      intro x hx
      obtain rfl := List.mem_singleton.1 hx
      exact Or.inl rfl
    | ok p0 =>
      simp only [hO] at h
      cases hloop : pagingLoop O true 0 fuel
          ⟨0, p0, p0.items, [(⟨100, none⟩, Except.ok p0)]⟩ with
      | none =>
        simp only [hloop] at h
        exact absurd h (by simp)
      | some pr =>
        obtain ⟨s, oe⟩ := pr
        cases oe with
        | some e =>
          simp only [hloop] at h
          obtain rfl := Option.some.inj h
          obtain ⟨tr₁, req, htr, hall, hreq, -⟩ :=
            pagingLoop_err_spec O true 0 fuel _ s e hloop
          simp only at htr
          intro x hx
          simp only at hx
          rw [htr] at hx
          rcases List.mem_append.1 hx with hx' | hx'
          · rcases List.mem_append.1 hx' with hx'' | hx''
            · obtain rfl := List.mem_singleton.1 hx''
              exact Or.inl rfl
            · exact Or.inl (hall x hx'').2.1
          · obtain rfl := List.mem_singleton.1 hx'
            exact Or.inl hreq
        | none =>
          simp only [hloop] at h
          obtain ⟨tr₁, htr, -, -, hall, -, -⟩ :=
            pagingLoop_exit_spec O true 0 fuel _ s hloop
          simp only at htr
          unfold finishFetch at h
          cases hOF : O s.trace.length ⟨100, some s.batch.next⟩ with
          | error e =>
            simp only [hOF] at h
            obtain rfl := Option.some.inj h
            intro x hx
            simp only at hx
            rcases List.mem_append.1 hx with hx' | hx'
            · rw [htr] at hx'
              rcases List.mem_append.1 hx' with hx'' | hx''
              · obtain rfl := List.mem_singleton.1 hx''
                exact Or.inl rfl
              · exact Or.inl (hall x hx'').2.1
            · obtain rfl := List.mem_singleton.1 hx'
              exact Or.inl rfl
          | ok pF =>
            simp only [hOF] at h
            obtain rfl := Option.some.inj h
            intro x hx
            simp only at hx
            rcases List.mem_append.1 hx with hx' | hx'
            · rw [htr] at hx'
              rcases List.mem_append.1 hx' with hx'' | hx''
              · obtain rfl := List.mem_singleton.1 hx''
                exact Or.inl rfl
              · exact Or.inl (hall x hx'').2.1
            · obtain rfl := List.mem_singleton.1 hx'
              exact Or.inl rfl

/-! ## Claim theorems -/

/-- C3: for every limit with `0 <= limit <= 100`, `_get_paging_items` issues
exactly one fetch, with page size equal to `limit`, and returns exactly the
items of that single page, with no further requests regardless of the page's
`has_more` flag (the page `p`, and in particular its `hasNext` flag, is
arbitrary). -/
theorem paging_limit_le_100_single_fetch (O : Oracle Item Cursor E) (l : Int)
    (fuel : Nat) (p : Page Item Cursor) (h0 : 0 ≤ l) (h100 : l ≤ 100)
    (hO : O 0 ⟨l, none⟩ = Except.ok p) :
    get_paging_items O (some l) fuel =
      some ⟨[(⟨l, none⟩, Except.ok p)], Except.ok p.items⟩ := by
  rw [get_paging_items_small_eq O fuel h100]
  simp only [hO]

/-- Witness for C3 at `limit = 50` with a concrete page whose `hasNext` is
`true`. -/
theorem paging_limit_le_100_single_fetch_witness :
    get_paging_items (fun i _ => Except.ok ⟨[i], i + 1, true⟩ : Oracle Nat Nat Unit)
      (some 50) 5 =
      some ⟨[(⟨50, none⟩, Except.ok ⟨[0], 1, true⟩)], Except.ok [0]⟩ :=
  paging_limit_le_100_single_fetch
    (fun i _ => Except.ok ⟨[i], i + 1, true⟩ : Oracle Nat Nat Unit)
    50 5 ⟨[0], 1, true⟩ (by decide) (by decide) rfl

/-- C1: for every limit greater than 100, when every fetch succeeds and the
fuel covers the loop, the run returns and its fetch schedule is determined by
the limit alone: a first fetch of size 100, `(limit - 100) / 100`
cursor-following fetches of size 100, and one final fetch of size
`(limit - 100) % 100` (issued even when the remainder is 0); the total number
of fetches is `2 + (limit - 100) / 100` regardless of any page's `hasNext`
flag (the oracle's pages are arbitrary). -/
theorem paging_limit_gt_100_schedule (O : Oracle Item Cursor E) (l : Int)
    (fuel : Nat) (hO : ∀ i r, ∃ p, O i r = Except.ok p) (hl : 100 < l)
    (hfuel : ((l - 100) / 100).toNat ≤ fuel) :
    ∃ (tr : Trace Item Cursor E) (its : List Item),
      get_paging_items O (some l) fuel = some ⟨tr, Except.ok its⟩ ∧
      tr.length = 2 + ((l - 100) / 100).toNat ∧
      tr.map (fun x => x.1.limit) =
        100 :: (List.replicate ((l - 100) / 100).toNat 100 ++
          [(l - 100) % 100]) ∧
      (∀ i, 1 ≤ i → i + 1 < tr.length → ChainBack tr i) := by
  obtain ⟨p0, hp0⟩ := hO 0 ⟨100, none⟩
  obtain ⟨s, hs⟩ := pagingLoop_total O ((l - 100) / 100) hO fuel
    ⟨0, p0, p0.items, [(⟨100, none⟩, Except.ok p0)]⟩ (by simp only; omega)
  obtain ⟨pF, hpF⟩ := hO s.trace.length ⟨(l - 100) % 100, none⟩
  have hrun : get_paging_items O (some l) fuel =
      some ⟨s.trace ++ [(⟨(l - 100) % 100, none⟩, Except.ok pF)],
        Except.ok (s.items ++ pF.items)⟩ := by
    rw [get_paging_items_large_eq O fuel hl]
    simp only [hp0, hs, finishFetch, hpF]
  obtain ⟨p0', pF', tr₁, -, htr, hlen1, hall, -, hchain⟩ := run_large_ok O hl hrun
  refine ⟨_, _, hrun, ?_, ?_, hchain⟩
  · rw [htr]
    simp only [List.length_cons, List.length_append, List.length_nil, hlen1]
    omega
  · rw [htr]
    simp only [List.map_cons, List.map_append, List.map_nil]
    have hmap : tr₁.map (fun x => x.1.limit) =
        List.replicate ((l - 100) / 100).toNat 100 := by
      rw [List.eq_replicate_iff]
      refine ⟨by simp [hlen1], ?_⟩
      intro b hb
      obtain ⟨x, hx, rfl⟩ := List.mem_map.1 hb
      exact (hall x hx).2.1
    rw [hmap]

/-- Witness for C1 at `limit = 200` (so the final fetch has size 0) with a
concrete always-succeeding oracle. -/
theorem paging_limit_gt_100_schedule_witness :
    ∃ (tr : Trace Nat Nat Unit) (its : List Nat),
      get_paging_items (fun i _ => Except.ok ⟨[i], i + 1, true⟩ : Oracle Nat Nat Unit)
        (some 200) 1 = some ⟨tr, Except.ok its⟩ ∧
      tr.length = 2 + ((200 - 100 : Int) / 100).toNat ∧
      tr.map (fun x => x.1.limit) =
        100 :: (List.replicate ((200 - 100 : Int) / 100).toNat 100 ++
          [(200 - 100 : Int) % 100]) ∧
      (∀ i, 1 ≤ i → i + 1 < tr.length → ChainBack tr i) :=
  paging_limit_gt_100_schedule
    (fun i _ => Except.ok ⟨[i], i + 1, true⟩ : Oracle Nat Nat Unit)
    200 1 (fun i r => ⟨⟨[i], i + 1, true⟩, rfl⟩) (by decide) (by decide)

/-- C2: for every run with `limit = None` that returns, the trace consists of
one fetch per page while the most recent page reported `hasNext = true`
(every page strictly before position `length - 2` has `hasNext = true`), the
page at position `length - 2` is the first reporting `hasNext = false`, and
exactly one extra fetch follows it, with page size 100 and that page's
cursor, its items appended; so the number of fetches is the number of pages
up to and including the first `hasNext = false` page, plus one. -/
theorem paging_unbounded_schedule (O : Oracle Item Cursor E) (fuel : Nat)
    (tr : Trace Item Cursor E) (its : List Item)
    (h : get_paging_items O none fuel = some ⟨tr, Except.ok its⟩) :
    2 ≤ tr.length ∧
    (∀ i req p, i + 2 < tr.length → tr[i]? = some (req, Except.ok p) →
      p.hasNext = true) ∧
    (∃ (preq : FetchRequest Cursor) (pLast pF : Page Item Cursor),
      tr[tr.length - 2]? = some (preq, Except.ok pLast) ∧
      pLast.hasNext = false ∧
      tr[tr.length - 1]? = some (⟨100, some pLast.next⟩, Except.ok pF)) ∧
    (∀ x ∈ tr, x.1.limit = 100) ∧
    its = traceItems tr := by
  obtain ⟨p0, pLast, pF, tr₁, preqL, -, htr, hall, hidx, hfalse, hpre, hits⟩ :=
    run_none_ok O h
  subst htr
  refine ⟨?_, hpre, ⟨preqL, pLast, pF, hidx, hfalse, ?_⟩, ?_, ?_⟩
  · simp only [List.length_cons, List.length_append, List.length_nil]
    omega
  · have hL : (((⟨100, none⟩ : FetchRequest Cursor), Except.ok p0) ::
        (tr₁ ++ [((⟨100, some pLast.next⟩ : FetchRequest Cursor),
          Except.ok pF)])).length - 1 =
        (((⟨100, none⟩ : FetchRequest Cursor), Except.ok p0) :: tr₁).length := by
      simp
    rw [hL]
    exact List.getElem?_concat_length
      (((⟨100, none⟩ : FetchRequest Cursor), Except.ok p0) :: tr₁) _
  · intro x hx
    rcases List.mem_cons.1 hx with rfl | hx'
    · rfl
    · rcases List.mem_append.1 hx' with hx'' | hx''
      · exact (hall x hx'').2.1
      · obtain rfl := List.mem_singleton.1 hx''
        rfl
  · rw [hits]
    simp

/-- Witness for C2 with a concrete oracle whose third page is the first with
`hasNext = false`: 4 fetches, the last one following the third page's
cursor. -/
theorem paging_unbounded_schedule_witness :
    2 ≤ ([(⟨100, none⟩, Except.ok ⟨[0], 1, true⟩),
        (⟨100, some 1⟩, Except.ok ⟨[1], 2, true⟩),
        (⟨100, some 2⟩, Except.ok ⟨[2], 3, false⟩),
        (⟨100, some 3⟩, Except.ok ⟨[3], 4, false⟩)] : Trace Nat Nat Unit).length ∧
    (∀ i req p,
      i + 2 < ([(⟨100, none⟩, Except.ok ⟨[0], 1, true⟩),
        (⟨100, some 1⟩, Except.ok ⟨[1], 2, true⟩),
        (⟨100, some 2⟩, Except.ok ⟨[2], 3, false⟩),
        (⟨100, some 3⟩, Except.ok ⟨[3], 4, false⟩)] : Trace Nat Nat Unit).length →
      ([(⟨100, none⟩, Except.ok ⟨[0], 1, true⟩),
        (⟨100, some 1⟩, Except.ok ⟨[1], 2, true⟩),
        (⟨100, some 2⟩, Except.ok ⟨[2], 3, false⟩),
        (⟨100, some 3⟩, Except.ok ⟨[3], 4, false⟩)] : Trace Nat Nat Unit)[i]? =
          some (req, Except.ok p) →
      p.hasNext = true) ∧
    (∃ (preq : FetchRequest Nat) (pLast pF : Page Nat Nat),
      ([(⟨100, none⟩, Except.ok ⟨[0], 1, true⟩),
        (⟨100, some 1⟩, Except.ok ⟨[1], 2, true⟩),
        (⟨100, some 2⟩, Except.ok ⟨[2], 3, false⟩),
        (⟨100, some 3⟩, Except.ok ⟨[3], 4, false⟩)] :
          Trace Nat Nat Unit)[([(⟨100, none⟩, Except.ok ⟨[0], 1, true⟩),
        (⟨100, some 1⟩, Except.ok ⟨[1], 2, true⟩),
        (⟨100, some 2⟩, Except.ok ⟨[2], 3, false⟩),
        (⟨100, some 3⟩, Except.ok ⟨[3], 4, false⟩)] : Trace Nat Nat Unit).length - 2]? =
          some (preq, Except.ok pLast) ∧
      pLast.hasNext = false ∧
      ([(⟨100, none⟩, Except.ok ⟨[0], 1, true⟩),
        (⟨100, some 1⟩, Except.ok ⟨[1], 2, true⟩),
        (⟨100, some 2⟩, Except.ok ⟨[2], 3, false⟩),
        (⟨100, some 3⟩, Except.ok ⟨[3], 4, false⟩)] :
          Trace Nat Nat Unit)[([(⟨100, none⟩, Except.ok ⟨[0], 1, true⟩),
        (⟨100, some 1⟩, Except.ok ⟨[1], 2, true⟩),
        (⟨100, some 2⟩, Except.ok ⟨[2], 3, false⟩),
        (⟨100, some 3⟩, Except.ok ⟨[3], 4, false⟩)] : Trace Nat Nat Unit).length - 1]? =
          some (⟨100, some pLast.next⟩, Except.ok pF)) ∧
    (∀ x ∈ ([(⟨100, none⟩, Except.ok ⟨[0], 1, true⟩),
        (⟨100, some 1⟩, Except.ok ⟨[1], 2, true⟩),
        (⟨100, some 2⟩, Except.ok ⟨[2], 3, false⟩),
        (⟨100, some 3⟩, Except.ok ⟨[3], 4, false⟩)] : Trace Nat Nat Unit),
      x.1.limit = 100) ∧
    [0, 1, 2, 3] = traceItems ([(⟨100, none⟩, Except.ok ⟨[0], 1, true⟩),
        (⟨100, some 1⟩, Except.ok ⟨[1], 2, true⟩),
        (⟨100, some 2⟩, Except.ok ⟨[2], 3, false⟩),
        (⟨100, some 3⟩, Except.ok ⟨[3], 4, false⟩)] : Trace Nat Nat Unit) :=
  paging_unbounded_schedule
    (fun i _ => Except.ok ⟨[i], i + 1, decide (i < 2)⟩ : Oracle Nat Nat Unit) 10
    [(⟨100, none⟩, Except.ok ⟨[0], 1, true⟩),
      (⟨100, some 1⟩, Except.ok ⟨[1], 2, true⟩),
      (⟨100, some 2⟩, Except.ok ⟨[2], 3, false⟩),
      (⟨100, some 3⟩, Except.ok ⟨[3], 4, false⟩)]
    [0, 1, 2, 3] (by decide)

/-- C4: for every limit greater than 100, the final remainder-sized fetch of
a successful run carries no cursor (its params are only
`{"limit": (limit - 100) % 100}`, with `next = none`), unlike the loop
fetches, which all pass the previous page's cursor (`next` present); the
final fetch's items are still appended to the result. -/
theorem paging_final_fetch_no_cursor (O : Oracle Item Cursor E) (l : Int)
    (fuel : Nat) (tr : Trace Item Cursor E) (its : List Item) (hl : 100 < l)
    (h : get_paging_items O (some l) fuel = some ⟨tr, Except.ok its⟩) :
    ∃ (p0 pF : Page Item Cursor) (tr₁ : Trace Item Cursor E),
      tr = (⟨100, none⟩, Except.ok p0) ::
        (tr₁ ++ [(⟨(l - 100) % 100, none⟩, Except.ok pF)]) ∧
      (∀ x ∈ tr₁, (x.1.next).isSome = true) ∧
      its = p0.items ++ traceItems tr₁ ++ pF.items := by
  obtain ⟨p0, pF, tr₁, -, htr, -, hall, hits, -⟩ := run_large_ok O hl h
  exact ⟨p0, pF, tr₁, htr, fun x hx => (hall x hx).2.2, hits⟩

/-- Witness for C4 at `limit = 250`: the final fetch is
`{"limit": 50}` with no cursor, restarting from the beginning. -/
theorem paging_final_fetch_no_cursor_witness :
    ∃ (p0 pF : Page Nat Nat) (tr₁ : Trace Nat Nat Unit),
      ([(⟨100, none⟩, Except.ok ⟨[0], 1, true⟩),
        (⟨100, some 1⟩, Except.ok ⟨[1], 2, true⟩),
        (⟨50, none⟩, Except.ok ⟨[2], 3, true⟩)] : Trace Nat Nat Unit) =
        (⟨100, none⟩, Except.ok p0) ::
          (tr₁ ++ [(⟨((250 : Int) - 100) % 100, none⟩, Except.ok pF)]) ∧
      (∀ x ∈ tr₁, (x.1.next).isSome = true) ∧
      [0, 1, 2] = p0.items ++ traceItems tr₁ ++ pF.items :=
  paging_final_fetch_no_cursor
    (fun i _ => Except.ok ⟨[i], i + 1, true⟩ : Oracle Nat Nat Unit)
    250 1
    [(⟨100, none⟩, Except.ok ⟨[0], 1, true⟩),
      (⟨100, some 1⟩, Except.ok ⟨[1], 2, true⟩),
      (⟨50, none⟩, Except.ok ⟨[2], 3, true⟩)]
    [0, 1, 2] (by decide) (by decide)

/-- C5: for every present limit, the sum of the `"limit"` (page size) params
over all fetches of a successful run equals the limit exactly, and no
post-hoc truncation is applied: the returned sequence is everything the
fetches returned. -/
theorem paging_page_size_sum_eq_limit (O : Oracle Item Cursor E) (l : Int)
    (fuel : Nat) (tr : Trace Item Cursor E) (its : List Item)
    (h : get_paging_items O (some l) fuel = some ⟨tr, Except.ok its⟩) :
    (tr.map fun x => x.1.limit).sum = l ∧ its = traceItems tr := by
  by_cases hl : l ≤ 100
  · rw [get_paging_items_small_eq O fuel hl] at h
    cases hO : O 0 (⟨l, none⟩ : FetchRequest Cursor) with
    | error e =>
      simp only [hO] at h
      exact absurd (RunResult.mk.injEq .. ▸ Option.some.inj h).2 (by simp)
    | ok p =>
      simp only [hO] at h
      obtain ⟨h1, h2⟩ := RunResult.mk.injEq .. ▸ Option.some.inj h
      obtain rfl : tr = [(⟨l, none⟩, Except.ok p)] := h1.symm
      obtain rfl : its = p.items := by simpa using h2.symm
      constructor
      · simp
      · simp [traceItems]
  · have hl' : 100 < l := by omega
    obtain ⟨p0, pF, tr₁, -, htr, hlen1, hall, hits, -⟩ := run_large_ok O hl' h
    subst htr
    have hmap : tr₁.map (fun x => x.1.limit) =
        List.replicate ((l - 100) / 100).toNat 100 := by
      rw [List.eq_replicate_iff]
      refine ⟨by simp [hlen1], ?_⟩
      intro b hb
      obtain ⟨x, hx, rfl⟩ := List.mem_map.1 hb
      exact (hall x hx).2.1
    constructor
    · simp only [List.map_cons, List.map_append, List.map_nil, hmap,
        List.sum_cons, List.sum_append, List.sum_replicate, nsmul_eq_mul,
        List.sum_singleton, List.sum_nil, add_zero]
      omega
    · rw [hits]
      simp

/-- Witness for C5 at `limit = 250`: page sizes 100 + 100 + 50 = 250 and the
result is the concatenation of everything fetched. -/
theorem paging_page_size_sum_eq_limit_witness :
    (([(⟨100, none⟩, Except.ok ⟨[0], 1, true⟩),
      (⟨100, some 1⟩, Except.ok ⟨[1], 2, true⟩),
      (⟨50, none⟩, Except.ok ⟨[2], 3, true⟩)] : Trace Nat Nat Unit).map
        fun x => x.1.limit).sum = 250 ∧
    [0, 1, 2] = traceItems ([(⟨100, none⟩, Except.ok ⟨[0], 1, true⟩),
      (⟨100, some 1⟩, Except.ok ⟨[1], 2, true⟩),
      (⟨50, none⟩, Except.ok ⟨[2], 3, true⟩)] : Trace Nat Nat Unit) :=
  paging_page_size_sum_eq_limit
    (fun i _ => Except.ok ⟨[i], i + 1, true⟩ : Oracle Nat Nat Unit)
    250 1
    [(⟨100, none⟩, Except.ok ⟨[0], 1, true⟩),
      (⟨100, some 1⟩, Except.ok ⟨[1], 2, true⟩),
      (⟨50, none⟩, Except.ok ⟨[2], 3, true⟩)]
    [0, 1, 2] (by decide)

/-- C6: for every run with `limit` either `None` or a non-negative integer,
the page size of every single fetch it issues (initial, loop, and
trailing/final, in successful and in failing runs alike) lies in `[0, 100]`. -/
theorem paging_page_size_in_range (O : Oracle Item Cursor E)
    (limit : Option Int) (fuel : Nat) (r : RunResult Item Cursor E)
    (hlim : limit = none ∨ ∃ l, limit = some l ∧ 0 ≤ l)
    (h : get_paging_items O limit fuel = some r) :
    ∀ x ∈ r.trace, 0 ≤ x.1.limit ∧ x.1.limit ≤ 100 := by
  intro x hx
  rcases run_req_range O limit fuel r h x hx with h100 | ⟨l, hlim', hini⟩ | ⟨l, hlim', hrem⟩
  · rw [h100]
    omega
  · have h0l : 0 ≤ l := by
      rcases hlim with h' | ⟨l', hl', h0⟩
      · rw [h'] at hlim'
        exact absurd hlim' (by simp)
      · rw [hl'] at hlim'
        obtain rfl := Option.some.inj hlim'
        exact h0
    rw [hini]
    by_cases hc : 100 < l <;> simp [hc] <;> omega
  · rw [hrem]
    constructor
    · omega
    · omega

/-- Witness for C6 on a failing unbounded run whose second fetch errors: the
failing request itself has size in `[0, 100]`. -/
theorem paging_page_size_in_range_witness :
    0 ≤ (((⟨100, some 1⟩, Except.error FetchError.transportError) :
        FetchRequest Nat × Except FetchError (Page Nat Nat))).1.limit ∧
    (((⟨100, some 1⟩, Except.error FetchError.transportError) :
        FetchRequest Nat × Except FetchError (Page Nat Nat))).1.limit ≤ 100 :=
  paging_page_size_in_range
    (fun i _ => if i = 0 then Except.ok ⟨[0], 1, true⟩
      else Except.error FetchError.transportError : Oracle Nat Nat FetchError)
    none 10
    ⟨[(⟨100, none⟩, Except.ok ⟨[0], 1, true⟩),
      (⟨100, some 1⟩, Except.error FetchError.transportError)],
      Except.error FetchError.transportError⟩
    (Or.inl rfl) (by decide)
    ((⟨100, some 1⟩, Except.error FetchError.transportError))
    (by decide)

/-- C7: for every run that returns normally, the returned sequence is exactly
the concatenation, in fetch order, of the item lists of the pages fetched
(all of which were successful), with no reordering, deduplication, drops or
insertions. -/
theorem paging_result_is_ordered_concat (O : Oracle Item Cursor E)
    (limit : Option Int) (fuel : Nat) (tr : Trace Item Cursor E)
    (its : List Item)
    (h : get_paging_items O limit fuel = some ⟨tr, Except.ok its⟩) :
    its = traceItems tr ∧ ∀ x ∈ tr, ∃ p, x.2 = Except.ok p := by
  match limit with
  | some l =>
    by_cases hl : l ≤ 100
    · rw [get_paging_items_small_eq O fuel hl] at h
      cases hO : O 0 (⟨l, none⟩ : FetchRequest Cursor) with
      | error e =>
        simp only [hO] at h
        exact absurd (RunResult.mk.injEq .. ▸ Option.some.inj h).2 (by simp)
      | ok p =>
        simp only [hO] at h
        obtain ⟨h1, h2⟩ := RunResult.mk.injEq .. ▸ Option.some.inj h
        obtain rfl : tr = [(⟨l, none⟩, Except.ok p)] := h1.symm
        obtain rfl : its = p.items := by simpa using h2.symm
        exact ⟨by simp [traceItems], by
          intro x hx
          obtain rfl := List.mem_singleton.1 hx
          exact ⟨p, rfl⟩⟩
    · have hl' : 100 < l := by omega
      obtain ⟨p0, pF, tr₁, -, htr, -, hall, hits, -⟩ := run_large_ok O hl' h
      subst htr
      refine ⟨by rw [hits]; simp, ?_⟩
      intro x hx
      rcases List.mem_cons.1 hx with rfl | hx'
      · exact ⟨p0, rfl⟩
      · rcases List.mem_append.1 hx' with hx'' | hx''
        · exact (hall x hx'').1
        · obtain rfl := List.mem_singleton.1 hx''
          exact ⟨pF, rfl⟩
  | none =>
    obtain ⟨p0, pLast, pF, tr₁, preqL, -, htr, hall, -, -, -, hits⟩ :=
      run_none_ok O h
    subst htr
    refine ⟨by rw [hits]; simp, ?_⟩
    intro x hx
    rcases List.mem_cons.1 hx with rfl | hx'
    · exact ⟨p0, rfl⟩
    · rcases List.mem_append.1 hx' with hx'' | hx''
      · exact (hall x hx'').1
      · obtain rfl := List.mem_singleton.1 hx''
        exact ⟨pF, rfl⟩

/-- Witness for C7 on a concrete unbounded run with 4 fetches. -/
theorem paging_result_is_ordered_concat_witness :
    [0, 1, 2, 3] = traceItems ([(⟨100, none⟩, Except.ok ⟨[0], 1, true⟩),
        (⟨100, some 1⟩, Except.ok ⟨[1], 2, true⟩),
        (⟨100, some 2⟩, Except.ok ⟨[2], 3, false⟩),
        (⟨100, some 3⟩, Except.ok ⟨[3], 4, false⟩)] : Trace Nat Nat Unit) ∧
    ∀ x ∈ ([(⟨100, none⟩, Except.ok ⟨[0], 1, true⟩),
        (⟨100, some 1⟩, Except.ok ⟨[1], 2, true⟩),
        (⟨100, some 2⟩, Except.ok ⟨[2], 3, false⟩),
        (⟨100, some 3⟩, Except.ok ⟨[3], 4, false⟩)] : Trace Nat Nat Unit),
      ∃ p, x.2 = Except.ok p :=
  paging_result_is_ordered_concat
    (fun i _ => Except.ok ⟨[i], i + 1, decide (i < 2)⟩ : Oracle Nat Nat Unit)
    none 10
    [(⟨100, none⟩, Except.ok ⟨[0], 1, true⟩),
      (⟨100, some 1⟩, Except.ok ⟨[1], 2, true⟩),
      (⟨100, some 2⟩, Except.ok ⟨[2], 3, false⟩),
      (⟨100, some 3⟩, Except.ok ⟨[3], 4, false⟩)]
    [0, 1, 2, 3] (by decide)

/-- C8: for every run in which some fetch fails, the error propagates
immediately and the whole call aborts: the run's result is the error (so no
item list — in particular none of the items of the earlier, successful,
fetches — is delivered to the caller), the failing fetch is the last one
recorded, every fetch before it succeeded, and the error is exactly the
oracle's answer to the failing fetch. -/
theorem paging_error_aborts_run (O : Oracle Item Cursor E)
    (limit : Option Int) (fuel : Nat) (tr : Trace Item Cursor E) (e : E)
    (h : get_paging_items O limit fuel = some ⟨tr, Except.error e⟩) :
    (∀ its : List Item,
      (⟨tr, Except.error e⟩ : RunResult Item Cursor E).result ≠ Except.ok its) ∧
    ∃ (tr₀ : Trace Item Cursor E) (req : FetchRequest Cursor),
      tr = tr₀ ++ [(req, Except.error e)] ∧
      (∀ x ∈ tr₀, ∃ p, x.2 = Except.ok p) ∧
      O tr₀.length req = Except.error e :=
  ⟨by simp, run_err O h⟩

/-- Witness for C8: a run whose second fetch fails aborts with that error and
records one successful fetch before it. -/
theorem paging_error_aborts_run_witness :
    (∀ its : List Nat,
      (⟨[(⟨100, none⟩, Except.ok ⟨[0], 1, true⟩), (⟨100, some 1⟩, Except.error ())],
          Except.error ()⟩ : RunResult Nat Nat Unit).result ≠ Except.ok its) ∧
    ∃ (tr₀ : Trace Nat Nat Unit) (req : FetchRequest Nat),
      ([(⟨100, none⟩, Except.ok ⟨[0], 1, true⟩),
        (⟨100, some 1⟩, Except.error ())] : Trace Nat Nat Unit) =
        tr₀ ++ [(req, Except.error ())] ∧
      (∀ x ∈ tr₀, ∃ p, x.2 = Except.ok p) ∧
      (fun i _ => if i = 0 then Except.ok ⟨[0], 1, true⟩
        else Except.error () : Oracle Nat Nat Unit) tr₀.length req =
        Except.error () :=
  paging_error_aborts_run
    (fun i _ => if i = 0 then Except.ok ⟨[0], 1, true⟩
      else Except.error () : Oracle Nat Nat Unit)
    none 10
    [(⟨100, none⟩, Except.ok ⟨[0], 1, true⟩), (⟨100, some 1⟩, Except.error ())]
    () (by decide)

/-- C9: with the fetch boundary's error type modelled from the spec as
`FetchError` (`TransportError` / `ProtocolError`), every failure surfaced by
a run is one of exactly those two kinds, is surfaced to the caller unchanged
(it is exactly the oracle's answer to the failing fetch, which is the last
one recorded), and no fetch is retried (entry `i` of the trace is the one
answer the oracle gave to fetch number `i`). -/
theorem paging_error_kinds (O : Oracle Item Cursor FetchError)
    (limit : Option Int) (fuel : Nat) (tr : Trace Item Cursor FetchError)
    (e : FetchError)
    (h : get_paging_items O limit fuel = some ⟨tr, Except.error e⟩) :
    (e = FetchError.transportError ∨ e = FetchError.protocolError) ∧
    (∃ (tr₀ : Trace Item Cursor FetchError) (req : FetchRequest Cursor),
      tr = tr₀ ++ [(req, Except.error e)] ∧
      O tr₀.length req = Except.error e) ∧
    (∀ i req res, tr[i]? = some (req, res) → O i req = res) := by
  refine ⟨by cases e <;> simp, ?_, ?_⟩
  · obtain ⟨tr₀, req, htr, -, hOr⟩ := run_err O h
    exact ⟨tr₀, req, htr, hOr⟩
  · exact fun i req res hi =>
      run_faithful O limit fuel ⟨tr, Except.error e⟩ h i req res hi

/-- Witness for C9: a run failing with `protocolError` on its second fetch. -/
theorem paging_error_kinds_witness :
    (FetchError.protocolError = FetchError.transportError ∨
      FetchError.protocolError = FetchError.protocolError) ∧
    (∃ (tr₀ : Trace Nat Nat FetchError) (req : FetchRequest Nat),
      ([(⟨100, none⟩, Except.ok ⟨[0], 1, true⟩),
        (⟨100, some 1⟩, Except.error FetchError.protocolError)] :
          Trace Nat Nat FetchError) =
        tr₀ ++ [(req, Except.error FetchError.protocolError)] ∧
      (fun i _ => if i = 0 then Except.ok ⟨[0], 1, true⟩
        else Except.error FetchError.protocolError :
          Oracle Nat Nat FetchError) tr₀.length req =
        Except.error FetchError.protocolError) ∧
    (∀ i req res,
      ([(⟨100, none⟩, Except.ok ⟨[0], 1, true⟩),
        (⟨100, some 1⟩, Except.error FetchError.protocolError)] :
          Trace Nat Nat FetchError)[i]? = some (req, res) →
      (fun i _ => if i = 0 then Except.ok ⟨[0], 1, true⟩
        else Except.error FetchError.protocolError :
          Oracle Nat Nat FetchError) i req = res) :=
  paging_error_kinds
    (fun i _ => if i = 0 then Except.ok ⟨[0], 1, true⟩
      else Except.error FetchError.protocolError : Oracle Nat Nat FetchError)
    none 10
    [(⟨100, none⟩, Except.ok ⟨[0], 1, true⟩),
      (⟨100, some 1⟩, Except.error FetchError.protocolError)]
    FetchError.protocolError (by decide)

/-- C10 counterexample: on the response dictionary `{"error": 0}` — which
contains the key `"error"` but no `"status"` — the decorator does not raise
an `APIError` at all (the claim's iff demands one); it raises
`KeyError("status")`. -/
theorem api_request_counterexample :
    api_request [(("error" : String), (0 : Nat))] = PyOutcome.keyError "status" ∧
    ¬ ∃ st d : Nat,
      api_request [(("error" : String), (0 : Nat))] = PyOutcome.apiError st d := by
  constructor
  · rfl
  · rintro ⟨st, d, hcontra⟩
    rw [show api_request [(("error" : String), (0 : Nat))] =
      PyOutcome.keyError "status" from rfl] at hcontra
    exact absurd hcontra (by simp)

/-- C10 (amended): `api_request` raises `APIError` carrying exactly the
response's `"status"` and `"error_description"` values if and only if the
response contains `"error"` and both of those keys are present; if `"error"`
is present but `"status"` (resp. `"error_description"`) is missing, a
`KeyError` for that key propagates instead; without `"error"` the response
dictionary is returned unchanged. -/
theorem api_request_spec {V : Type} (retv : RespDict V) :
    (∀ ev, getKey retv "error" = some ev →
      ((getKey retv "status" = none →
          api_request retv = PyOutcome.keyError "status") ∧
        (∀ st, getKey retv "status" = some st →
          getKey retv "error_description" = none →
          api_request retv = PyOutcome.keyError "error_description") ∧
        (∀ st d, getKey retv "status" = some st →
          getKey retv "error_description" = some d →
          api_request retv = PyOutcome.apiError st d))) ∧
    (getKey retv "error" = none → api_request retv = PyOutcome.ok retv) ∧
    (∀ st d, api_request retv = PyOutcome.apiError st d →
      (∃ ev, getKey retv "error" = some ev) ∧
        getKey retv "status" = some st ∧
        getKey retv "error_description" = some d) := by
  refine ⟨?_, ?_, ?_⟩
  · intro ev hev
    refine ⟨?_, ?_, ?_⟩
    · intro hst
      simp [api_request, hev, hst]
    · intro st hst hd
      simp [api_request, hev, hst, hd]
    · intro st d hst hd
      simp [api_request, hev, hst, hd]
  · intro hnone
    simp [api_request, hnone]
  · intro st d happ
    cases hev : getKey retv "error" with
    | none =>
      rw [api_request, if_neg (by simp [hev])] at happ
      exact absurd happ (by simp)
    | some ev =>
      cases hst : getKey retv "status" with
      | none =>
        rw [api_request, if_pos (by simp [hev])] at happ
        simp only [hst] at happ
        exact absurd happ (by simp)
      | some st' =>
        cases hd : getKey retv "error_description" with
        | none =>
          rw [api_request, if_pos (by simp [hev])] at happ
          simp only [hst, hd] at happ
          exact absurd happ (by simp)
        | some d' =>
          rw [api_request, if_pos (by simp [hev])] at happ
          simp only [hst, hd, PyOutcome.apiError.injEq] at happ
          obtain ⟨rfl, rfl⟩ := happ
          exact ⟨⟨ev, rfl⟩, rfl, rfl⟩

/-- Witness for the amended C10 on the concrete error response
`{"error": 1, "status": 2, "error_description": 3}`. -/
theorem api_request_spec_witness :
    api_request [(("error" : String), (1 : Nat)), ("status", 2),
      ("error_description", 3)] = PyOutcome.apiError 2 3 :=
  (((api_request_spec [(("error" : String), (1 : Nat)), ("status", 2),
    ("error_description", 3)]).1 1 rfl).2.2) 2 3 rfl rfl

end IFAPI
